import Mathlib

/-!
Verification of the streaming Markdown renderer in
`src/helpers/markdown-renderer.ts`.

Strings are modelled as `List Char`.  JavaScript regular expressions used by
the source are transcribed as deterministic character scans; each definition
carries a comment citing the regex it implements.
-/

namespace MdRender

abbrev Str := List Char

/-- The escape character `\x1b` used by all ANSI sequences. -/
def escC : Char := '\x1b'

/-- JavaScript `\s` (WhiteSpace ∪ LineTerminator), as used by `trim()` and
the `\s` character class of the source's regexes. -/
def jsWs (c : Char) : Bool :=
  c.val == 9 || c.val == 10 || c.val == 11 || c.val == 12 || c.val == 13 ||
  c.val == 32 || c.val == 0xa0 || c.val == 0x1680 ||
  (0x2000 ≤ c.val && c.val ≤ 0x200a) ||
  c.val == 0x2028 || c.val == 0x2029 || c.val == 0x202f || c.val == 0x205f ||
  c.val == 0x3000 || c.val == 0xfeff

/-- Characters matched by `.` in a JavaScript regex (no `s` flag):
anything except the four line terminators. -/
def isDotCh (c : Char) : Bool :=
  !(c == '\n') && !(c == '\r') && !(c.val == 0x2028) && !(c.val == 0x2029)

/-- `[0-9]`. -/
def isDigitCh (c : Char) : Bool := '0' ≤ c && c ≤ '9'

/-- `[0-9;]`, the parameter characters of an ANSI escape sequence. -/
def isParamCh (c : Char) : Bool := isDigitCh c || c == ';'

/-- JavaScript `String.prototype.trim`. -/
def trimStr (s : Str) : Str :=
  ((s.dropWhile jsWs).reverse.dropWhile jsWs).reverse

/-- Source: `const isFence = (line) => line.trim().startsWith('```')`. -/
def isFence (l : Str) : Bool :=
  (trimStr l).take 3 == ['`', '`', '`']

/-- Source: `line.includes('|')` (the `isTableRow` helper). -/
def isTableRow (l : Str) : Bool := l.contains '|'

/-- JavaScript `split('|')`: splits into the (always nonempty) list of
pipe-free segments. -/
def splitPipe : Str → List Str
  | [] => [[]]
  | c :: rest =>
    match splitPipe rest with
    | [] => [[c]]
    | l :: ls => if c == '|' then [] :: l :: ls else (c :: l) :: ls

/-- A segment consisting only of `\s*` (possibly empty). -/
def wsOnly (s : Str) : Bool := s.all jsWs

/-- A pipe-free segment matching `\s*:?-+:?\s*` (the "chunk" of the table
separator regex): optional whitespace, an optional colon, at least one dash,
an optional colon, optional whitespace. -/
def dashSeg (s : Str) : Bool :=
  let s1 := s.dropWhile jsWs
  let s2 := if s1.head? == some ':' then s1.tail else s1
  let dashes := s2.takeWhile (fun c => c == '-')
  let s3 := s2.dropWhile (fun c => c == '-')
  let s4 := if s3.head? == some ':' then s3.tail else s3
  !dashes.isEmpty && s4.all jsWs

/-- Drops the head of a segment list when it is whitespace-only. -/
def stripWsHead : List Str → List Str
  | [] => []
  | s :: rest => if wsOnly s then rest else s :: rest

/-- Source: `/^\s*\|?(\s*:?-+:?\s*\|)+\s*:?-+:?\s*\|?\s*$/.test(line)`.

Since the repeated group `\s*:?-+:?\s*` cannot contain `|`, the regex's
decomposition of the line is forced by its pipe characters: the line matches
iff, after splitting on `|`, dropping a whitespace-only first segment (the
text before an initial `|`) and a whitespace-only last segment (the text
after a final `|`), at least two segments remain and every one matches
`\s*:?-+:?\s*`.  (The final `\|?` lets the last dash group carry a trailing
pipe, which is exactly the dropped whitespace-only last segment.) -/
def isTableSeparator (l : Str) : Bool :=
  let segs := splitPipe l
  if segs.length < 2 then false
  else
    let core := (stripWsHead (stripWsHead segs).reverse).reverse
    2 ≤ core.length && core.all dashSeg

/-- Source `parseTableRow`: trim, strip one leading `|` (`replace(/^\|/,'')`)
then one trailing `|` (`replace(/\|$/,'')`), split on `|`, trim each cell. -/
def parseTableRow (l : Str) : List Str :=
  let t := trimStr l
  let t1 := if t.head? == some '|' then t.tail else t
  let t2 := if t1.getLast? == some '|' then t1.dropLast else t1
  (splitPipe t2).map trimStr

/-! ### ANSI constants (the `ansi` table of the source) -/

def boldOn : Str := escC :: '[' :: '1' :: 'm' :: []
def boldOff : Str := escC :: '[' :: '2' :: '2' :: 'm' :: []
def italicOn : Str := escC :: '[' :: '3' :: 'm' :: []
def italicOff : Str := escC :: '[' :: '2' :: '3' :: 'm' :: []
def strikeOn : Str := escC :: '[' :: '9' :: 'm' :: []
def strikeOff : Str := escC :: '[' :: '2' :: '9' :: 'm' :: []
def underlineOn : Str := escC :: '[' :: '4' :: 'm' :: []
def underlineOff : Str := escC :: '[' :: '2' :: '4' :: 'm' :: []
def dimOn : Str := escC :: '[' :: '2' :: 'm' :: []
def dimOff : Str := escC :: '[' :: '2' :: '2' :: 'm' :: []
def cyanOn : Str := escC :: '[' :: '3' :: '6' :: 'm' :: []
def cyanOff : Str := escC :: '[' :: '3' :: '9' :: 'm' :: []
def codeOn : Str := cyanOn
def codeOff : Str := cyanOff
def headingOn : Str := boldOn ++ cyanOn
def headingOff : Str := boldOff ++ cyanOff

/-! ### `stripAnsi`

Source: `value.replace(/\x1b\[[0-9;]*m/g, '')`.  A global replace of this
pattern is a single left-to-right scan (none of `[`, `0-9`, `;` can begin a
match, so a failed attempt just emits the scanned characters), implemented
here as a three-state character scanner. -/

/-- Scanner state: outside any candidate escape, after `\x1b`, or after
`\x1b[` with the parameter characters read so far. -/
inductive ScanSt
  | norm
  | esc
  | par (params : Str)
deriving DecidableEq

/-- One scanner step: the characters emitted and the next state. -/
def scanStep (st : ScanSt) (c : Char) : Str × ScanSt :=
  match st with
  | .norm => if c == escC then ([], .esc) else ([c], .norm)
  | .esc =>
    if c == '[' then ([], .par [])
    else if c == escC then ([escC], .esc)
    else ([escC, c], .norm)
  | .par p =>
    if c == 'm' then ([], .norm)
    else if isParamCh c then ([], .par (p ++ [c]))
    else if c == escC then (escC :: '[' :: p, .esc)
    else (escC :: '[' :: p ++ [c], .norm)

/-- Characters emitted while scanning `s` from state `st`. -/
def stripOut (st : ScanSt) : Str → Str
  | [] => []
  | c :: rest => (scanStep st c).1 ++ stripOut (scanStep st c).2 rest

/-- Scanner state after scanning `s` from state `st`. -/
def stripFin (st : ScanSt) : Str → ScanSt
  | [] => st
  | c :: rest => stripFin (scanStep st c).2 rest

/-- Characters of an unfinished candidate escape, emitted at end of input. -/
def flushSt : ScanSt → Str
  | .norm => []
  | .esc => [escC]
  | .par p => escC :: '[' :: p

def stripAnsi (s : Str) : Str := stripOut .norm s ++ flushSt (stripFin .norm s)

/-- A character that cannot continue a partial escape sequence: scanning it
from any state first flushes the pending candidate unchanged. -/
def headFlushOk (c : Char) : Bool :=
  !(c == '[') && !(c == 'm') && !(isParamCh c)

/-! ### `renderInline`

Source: six successive global regex replaces.  Each is transcribed as a
left-to-right scan; on a failed match attempt the scan advances one
character, exactly as a JavaScript global replace does.  The quantifiers
involved (`[^x]+` runs bounded by their own excluded character, and the lazy
`(.+?)` which takes the earliest closing delimiter) admit no other
backtracking, so the scans are deterministic.  The recursions restart after
an emitted match, so they are fuelled by the input length (one unit per
scan position; every recursive call strictly shrinks the string, so the
fuel is never exhausted). -/

/-- Pass 1, `` /`([^`]+)`/g `` → `codeOn $1 codeOff`. -/
def codeSpanF : Nat → Str → Str
  | 0, s => s
  | _ + 1, [] => []
  | n + 1, c :: rest =>
    if c == '`' then
      let content := rest.takeWhile (fun d => !(d == '`'))
      let r2 := rest.dropWhile (fun d => !(d == '`'))
      match r2, content with
      | '`' :: r3, _ :: _ => codeOn ++ content ++ codeOff ++ codeSpanF n r3
      | _, _ => c :: codeSpanF n rest
    else c :: codeSpanF n rest

/-- Pass 2, `/~~([^~]+)~~/g` → `strikeOn $1 strikeOff`. -/
def strikeF : Nat → Str → Str
  | 0, s => s
  | _ + 1, [] => []
  | n + 1, c :: rest =>
    if c == '~' then
      match rest with
      | c2 :: rest2 =>
        if c2 == '~' then
          let content := rest2.takeWhile (fun d => !(d == '~'))
          let r2 := rest2.dropWhile (fun d => !(d == '~'))
          match r2, content with
          | '~' :: '~' :: r3, _ :: _ =>
            strikeOn ++ content ++ strikeOff ++ strikeF n r3
          | _, _ => c :: strikeF n rest
        else c :: strikeF n rest
      | [] => [c]
    else c :: strikeF n rest

/-- Finds the earliest `d::d` in the string, requiring every skipped
character to be matched by `.`; returns the skipped prefix and the suffix
after the pair.  (The search for the closing delimiter of the lazy
`(.+?)`.) -/
def findDD (d : Char) : Str → Option (Str × Str)
  | c1 :: c2 :: rest =>
    if c1 == d && c2 == d then some ([], rest)
    else if isDotCh c1 then
      (findDD d (c2 :: rest)).map (fun p => (c1 :: p.1, p.2))
    else none
  | _ => none

/-- Pass 3, `/(\*\*|__)(.+?)\1/g` → `boldOn $2 boldOff`. -/
def boldF : Nat → Str → Str
  | 0, s => s
  | _ + 1, [] => []
  | n + 1, c1 :: rest1 =>
    match rest1 with
    | c2 :: rest2 =>
      if (c1 == '*' && c2 == '*') || (c1 == '_' && c2 == '_') then
        match rest2 with
        | r0 :: rrest =>
          if isDotCh r0 then
            match findDD c1 rrest with
            | some p => boldOn ++ (r0 :: p.1) ++ boldOff ++ boldF n p.2
            | none => c1 :: boldF n rest1
          else c1 :: boldF n rest1
        | [] => c1 :: boldF n rest1
      else c1 :: boldF n rest1
    | [] => [c1]

/-- The closing part `[^d]+ d (?!d)` of the italic patterns: at least one
non-`d` character, a `d`, not followed by another `d`. -/
def italicClose (d : Char) (s : Str) : Option (Str × Str) :=
  let content := s.takeWhile (fun c => !(c == d))
  let r := s.dropWhile (fun c => !(c == d))
  match content, r with
  | _ :: _, _ :: r2 => if r2.head? == some d then none else some (content, r2)
  | _, _ => none

/-- Scan for `[^d]d[^d]+d(?!d)` matches away from the string start (the
`[^*]` alternative of group 1; `^` can no longer match). -/
def italicAuxF (d : Char) : Nat → Str → Str
  | 0, s => s
  | _ + 1, [] => []
  | n + 1, c :: rest =>
    if c == d then c :: italicAuxF d n rest
    else
      match rest with
      | c2 :: rest2 =>
        if c2 == d then
          match italicClose d rest2 with
          | some p => c :: (italicOn ++ p.1 ++ italicOff) ++ italicAuxF d n p.2
          | none => c :: italicAuxF d n rest
        else c :: italicAuxF d n rest
      | [] => [c]

/-- Passes 4 and 5, `/(^|[^*])\*([^*]+)\*(?!\*)/g` (and the same with `_`)
→ `$1 italicOn $2 italicOff`.  At position 0 the `^` alternative applies;
afterwards only the consumed-character alternative can match. -/
def italicPass (d : Char) (s : Str) : Str :=
  match s with
  | [] => []
  | c :: rest =>
    if c == d then
      match italicClose d rest with
      | some p => italicOn ++ p.1 ++ italicOff ++ italicAuxF d p.2.length p.2
      | none => c :: italicAuxF d rest.length rest
    else italicAuxF d s.length s

/-- Pass 6, `/\[([^\]]+)\]\(([^)]+)\)/g`
→ `underlineOn cyanOn $1 underlineOff cyanOff ($2)`. -/
def linkF : Nat → Str → Str
  | 0, s => s
  | _ + 1, [] => []
  | n + 1, c :: rest =>
    if c == '[' then
      let text := rest.takeWhile (fun d => !(d == ']'))
      let r1 := rest.dropWhile (fun d => !(d == ']'))
      match text, r1 with
      | _ :: _, ']' :: '(' :: r2 =>
        let url := r2.takeWhile (fun d => !(d == ')'))
        let r3 := r2.dropWhile (fun d => !(d == ')'))
        match url, r3 with
        | _ :: _, ')' :: r4 =>
          underlineOn ++ cyanOn ++ text ++ underlineOff ++ cyanOff ++
            (' ' :: '(' :: []) ++ url ++ (')' :: []) ++ linkF n r4
        | _, _ => c :: linkF n rest
      | _, _ => c :: linkF n rest
    else c :: linkF n rest

/-- Source `renderInline`: the six passes in order (code spans first, then
strikethrough, bold, `*`-italic, `_`-italic, links). -/
def renderInline (s : Str) : Str :=
  let s1 := codeSpanF s.length s
  let s2 := strikeF s1.length s1
  let s3 := boldF s2.length s2
  let s4 := italicPass '*' s3
  let s5 := italicPass '_' s4
  linkF s5.length s5

/-! ### `renderLine`

The five anchored matches of the source, in order.  Greedy runs whose
follower is outside their own character class admit no backtracking, so
each match is computed by maximal-run splitting.  For a tail of the form
`\s+(.*)$` the engine first tries the maximal whitespace run for `\s+`, and
`(.*)$` succeeds exactly when the remainder consists of `.`-matchable
characters, so group `(.*)` is the text after the maximal run. -/

/-- `/^\s*(#{1,6})\s+(.*)$/` — returns group 2. -/
def headingMatch (l : Str) : Option Str :=
  let r1 := l.dropWhile jsWs
  let hashes := r1.takeWhile (fun c => c == '#')
  let r2 := r1.dropWhile (fun c => c == '#')
  let w := r2.takeWhile jsWs
  let t := r2.dropWhile jsWs
  if 1 ≤ hashes.length && hashes.length ≤ 6 && !w.isEmpty && t.all isDotCh
  then some t else none

/-- `/^\s*(-{3,}|\*{3,}|_{3,})\s*$/`. -/
def isHr (l : Str) : Bool :=
  let r1 := l.dropWhile jsWs
  match r1 with
  | [] => false
  | c :: _ =>
    (c == '-' || c == '*' || c == '_') &&
    3 ≤ (r1.takeWhile (fun d => d == c)).length &&
    (r1.dropWhile (fun d => d == c)).all jsWs

/-- `/^(\s*)>\s?(.*)$/` — returns (group 1, group 2). -/
def bqMatch (l : Str) : Option (Str × Str) :=
  let ind := l.takeWhile jsWs
  match l.dropWhile jsWs with
  | '>' :: r2 =>
    match r2 with
    | [] => some (ind, [])
    | c :: r3 =>
      if jsWs c then if r3.all isDotCh then some (ind, r3) else none
      else if (c :: r3).all isDotCh then some (ind, c :: r3) else none
  | _ => none

/-- `/^(\s*)(\d+)\.\s+(.*)$/` — returns (group 1, group 2, group 3). -/
def olMatch (l : Str) : Option (Str × Str × Str) :=
  let ind := l.takeWhile jsWs
  let r1 := l.dropWhile jsWs
  let ds := r1.takeWhile isDigitCh
  match r1.dropWhile isDigitCh with
  | '.' :: r3 =>
    let w := r3.takeWhile jsWs
    let t := r3.dropWhile jsWs
    if !ds.isEmpty && !w.isEmpty && t.all isDotCh then some (ind, ds, t)
    else none
  | _ => none

/-- `/^(\s*)[-*+]\s+(.*)$/` — returns (group 1, group 2). -/
def ulMatch (l : Str) : Option (Str × Str) :=
  let ind := l.takeWhile jsWs
  match l.dropWhile jsWs with
  | c :: r2 =>
    if c == '-' || c == '*' || c == '+' then
      let w := r2.takeWhile jsWs
      let t := r2.dropWhile jsWs
      if !w.isEmpty && t.all isDotCh then some (ind, t) else none
    else none
  | [] => none

/-- Source `renderLine`: first matching classification wins. -/
def renderLine (line : Str) : Str :=
  if (trimStr line).isEmpty then []
  else
    match headingMatch line with
    | some t => headingOn ++ renderInline (trimStr t) ++ headingOff
    | none =>
      if isHr line then dimOn ++ List.replicate 40 '─' ++ dimOff
      else
        match bqMatch line with
        | some p =>
          p.1 ++ dimOn ++ ('│' :: []) ++ dimOff ++ (' ' :: []) ++
            renderInline (trimStr p.2)
        | none =>
          match olMatch line with
          | some p => p.1 ++ p.2.1 ++ ('.' :: ' ' :: []) ++ renderInline p.2.2
          | none =>
            match ulMatch line with
            | some p => p.1 ++ ('•' :: ' ' :: []) ++ renderInline p.2
            | none => renderInline line

/-! ### `renderTable` -/

/-- The escape-stripped display length of an inline-styled cell. -/
def styledLen (cell : Str) : Nat := (stripAnsi (renderInline cell)).length

/-- `widths[i]` after the source's fold over all rows:
`widths[index] = Math.max(widths[index] ?? 0, length, 3)` for every row that
has a cell at `index`.  A row without a cell at `index` contributes nothing
in the source; here it contributes `styledLen [] = 0`, which never affects
a maximum that is at least 3, so the fold below computes the same value for
every index that occurs in some row. -/
def colWidth (rows : List (List Str)) (i : Nat) : Nat :=
  rows.foldl (fun acc row => max acc (styledLen (row.getD i []))) 3

/-- The length of the source's `widths` array: the largest cell index
assigned, i.e. the maximum row length. -/
def numCols (rows : List (List Str)) : Nat :=
  rows.foldl (fun acc row => max acc row.length) 0

structure TableState where
  header : List Str
  rows : List (List Str)
deriving DecidableEq

/-- `[table.header, ...table.rows]`. -/
def allRows (t : TableState) : List (List Str) := t.header :: t.rows

def tableWidths (t : TableState) : List Nat :=
  (List.range (numCols (allRows t))).map (colWidth (allRows t))

/-- One cell of `renderRow`: inline-style `row[index] ?? ''` and pad with
trailing spaces to the column width (`Math.max(0, padding)` is the
truncation already built into `Nat` subtraction). -/
def padCell (width : Nat) (cell : Str) : Str :=
  let styled := renderInline cell
  styled ++ List.replicate (width - (stripAnsi styled).length) ' '

/-- The cell list of one rendered row: `widths.map((width, index) => ...)`,
with the bold+accent wrapper on header cells. -/
def renderRowCells (widths : List Nat) (row : List Str) (isHeader : Bool) :
    List Str :=
  (List.range widths.length).map fun i =>
    let padded := padCell (widths.getD i 0) (row.getD i [])
    if isHeader then boldOn ++ cyanOn ++ padded ++ boldOff ++ cyanOff
    else padded

/-- `` `| ${cells.join(' | ')} |` ``. -/
def rowLine (cells : List Str) : Str :=
  ('|' :: ' ' :: []) ++ List.intercalate (' ' :: '|' :: ' ' :: []) cells ++
    (' ' :: '|' :: [])

/-- The separator row: one dash run per column width. -/
def sepCells (widths : List Nat) : List Str :=
  widths.map fun w => List.replicate w '-'

/-- Source `renderTable`: header line, separator line, one line per data
row, joined with `'\n'`. -/
def renderTable (t : TableState) : Str :=
  let widths := tableWidths t
  List.intercalate ('\n' :: [])
    (rowLine (renderRowCells widths t.header true) ::
      rowLine (sepCells widths) ::
      t.rows.map fun r => rowLine (renderRowCells widths r false))

/-! ### Renderer state and the drain loop (`processPending`) -/

structure RendererState where
  buffer : Str
  pendingLines : List Str
  inCodeBlock : Bool
  tableState : Option TableState
deriving DecidableEq

def initialState : RendererState :=
  { buffer := [], pendingLines := [], inCodeBlock := false, tableState := none }

/-- One iteration of the source's `while (state.pendingLines.length > 0)`
loop.  `none` means the loop ends (queue empty, or the mid-queue `break`
while waiting for table look-ahead); `some (st', out)` is the state after
the iteration together with the strings written to the sink by it. -/
def drainStep (final : Bool) (st : RendererState) :
    Option (RendererState × List Str) :=
  match st.pendingLines with
  | [] => none
  | nextLine :: restLines =>
    match st.tableState with
    | some ts =>
      if isTableRow nextLine && !isTableSeparator nextLine then
        some ({ st with
                  tableState := some ⟨ts.header, ts.rows ++ [parseTableRow nextLine]⟩,
                  pendingLines := restLines }, [])
      else
        some ({ st with tableState := none }, [renderTable ts ++ ('\n' :: [])])
    | none =>
      if st.inCodeBlock then
        if isFence nextLine then
          some ({ st with pendingLines := restLines, inCodeBlock := false },
            [codeOff ++ ('\n' :: [])])
        else
          some ({ st with pendingLines := restLines },
            [nextLine ++ ('\n' :: [])])
      else if isFence nextLine then
        some ({ st with pendingLines := restLines, inCodeBlock := true },
          [codeOn ++ ('\n' :: [])])
      else if isTableRow nextLine then
        -- `if (state.pendingLines.length < 2 && !final) break;`
        if restLines.isEmpty && !final then none
        else
          -- `const separator = state.pendingLines[1];`
          -- `if (separator && isTableSeparator(separator))` — an absent or
          -- empty second line is falsy and falls through to the generic
          -- rendering of the current line.
          match restLines with
          | sep :: rest2 =>
            if !sep.isEmpty && isTableSeparator sep then
              some ({ st with
                        tableState := some ⟨parseTableRow nextLine, []⟩,
                        pendingLines := rest2 }, [])
            else
              some ({ st with pendingLines := restLines },
                [renderLine nextLine ++ ('\n' :: [])])
          | [] =>
            some ({ st with pendingLines := restLines },
              [renderLine nextLine ++ ('\n' :: [])])
      else
        some ({ st with pendingLines := restLines },
          [renderLine nextLine ++ ('\n' :: [])])

/-- Loop variant: every iteration either consumes a pending line or closes
the open table without touching the queue. -/
def drainMeasure (st : RendererState) : Nat :=
  2 * st.pendingLines.length + (if st.tableState.isSome then 1 else 0)

/-- The drain loop with explicit fuel (structural recursion, so that it
evaluates by kernel reduction). -/
def processPendingFuel (final : Bool) : Nat → RendererState →
    RendererState × List Str
  | 0, st => (st, [])
  | n + 1, st =>
    match drainStep final st with
    | none => (st, [])
    | some p =>
      let r := processPendingFuel final n p.1
      (r.1, p.2 ++ r.2)

/-- Source `processPending`: run the drain loop to completion.
`drainMeasure` strictly decreases at every iteration, so it is enough
fuel. -/
def processPending (final : Bool) (st : RendererState) :
    RendererState × List Str :=
  processPendingFuel final (drainMeasure st) st

/-! ### `write` and `flush` -/

/-- `buffer.split('\n')` followed by `lines.pop() ?? ''`: the complete lines
(text before each newline) and the remainder after the last newline. -/
def splitLines : Str → List Str × Str
  | [] => ([], [])
  | c :: rest =>
    let p := splitLines rest
    if c == '\n' then ([] :: p.1, p.2)
    else
      match p.1 with
      | [] => ([], c :: p.2)
      | l :: ls => ((c :: l) :: ls, p.2)

/-- Source `write`: append the chunk to the buffer, move the complete lines
to the pending queue, keep the unterminated tail, drain. -/
def write (st : RendererState) (chunk : Str) : RendererState × List Str :=
  let p := splitLines (st.buffer ++ chunk)
  processPending false
    { st with buffer := p.2, pendingLines := st.pendingLines ++ p.1 }

/-- Source `flush`: push a nonempty buffer as a final line, drain in final
mode, then emit a still-open table and close a still-open code block. -/
def flush (st : RendererState) : RendererState × List Str :=
  let st1 :=
    if st.buffer.isEmpty then st
    else { st with buffer := [], pendingLines := st.pendingLines ++ [st.buffer] }
  let r := processPending true st1
  let p2 :=
    match r.1.tableState with
    | some ts => ({ r.1 with tableState := none },
        [renderTable ts ++ ('\n' :: [])])
    | none => (r.1, ([] : List Str))
  let p3 :=
    if p2.1.inCodeBlock then
      ({ p2.1 with inCodeBlock := false }, [codeOff ++ ('\n' :: [])])
    else (p2.1, [])
  (p3.1, r.2 ++ p2.2 ++ p3.2)

/-- Feed a list of chunks through successive `write` calls. -/
def feedWrites : RendererState → List Str → RendererState × List Str
  | st, [] => (st, [])
  | st, c :: cs =>
    let r := write st c
    let r2 := feedWrites r.1 cs
    (r2.1, r.2 ++ r2.2)

/-- The sink output of a whole session: the given `write` chunks, then one
`flush`. -/
def render (chunks : List Str) : List Str :=
  let r := feedWrites initialState chunks
  r.2 ++ (flush r.1).2

/-- The mutual-exclusion invariant: a code block and a table are never open
at the same time. -/
def MutexInv (st : RendererState) : Prop :=
  st.inCodeBlock = true → st.tableState = none

instance (st : RendererState) : Decidable (MutexInv st) := by
  unfold MutexInv; infer_instance

/-- Joins segments with single pipes (the shape described by the table
separator glossary entry, used to state claim C8). -/
def joinPipe : List Str → Str
  | [] => []
  | [c] => c
  | c :: c2 :: cs => c ++ '|' :: joinPipe (c2 :: cs)

/-! ## Lemmas about the drain loop -/

theorem drainStep_nil (f : Bool) {st : RendererState}
    (h : st.pendingLines = []) : drainStep f st = none := by
  unfold drainStep
  rw [h]

theorem drainStep_buffer (f : Bool) {st : RendererState}
    {p : RendererState × List Str} (h : drainStep f st = some p) :
    p.1.buffer = st.buffer := by
  unfold drainStep at h
  repeat' split at h
  all_goals (cases h <;> rfl)

theorem drainStep_measure (f : Bool) {st : RendererState}
    {p : RendererState × List Str} (h : drainStep f st = some p) :
    drainMeasure p.1 < drainMeasure st := by
  unfold drainStep at h
  repeat' split at h
  all_goals (cases h <;> (simp_all [drainMeasure]; try omega))

theorem drainStep_bufferIrrel (f : Bool) (st : RendererState) (x : Str) :
    drainStep f { st with buffer := x } =
      (drainStep f st).map (fun p => ({ p.1 with buffer := x }, p.2)) := by
  obtain ⟨buf, pend, code, tbl⟩ := st
  unfold drainStep
  repeat' split
  all_goals simp_all

theorem drainStep_mutex (f : Bool) {st : RendererState}
    {p : RendererState × List Str} (h : drainStep f st = some p)
    (hm : MutexInv st) : MutexInv p.1 := by
  unfold drainStep at h
  repeat' split at h
  all_goals (cases h <;> simp_all [MutexInv])

theorem drainStep_final_none {st : RendererState}
    (h : drainStep true st = none) : st.pendingLines = [] := by
  unfold drainStep at h
  repeat' split at h
  all_goals simp_all

/-- A successful iteration behaves identically when more lines are queued
behind the current ones (used only in non-final mode, where an empty tail
makes the loop break rather than step). -/
theorem drainStep_append {st : RendererState} {p : RendererState × List Str}
    (extra : List Str) (h : drainStep false st = some p) :
    drainStep false { st with pendingLines := st.pendingLines ++ extra } =
      some ({ p.1 with pendingLines := p.1.pendingLines ++ extra }, p.2) := by
  obtain ⟨buf, pend, code, tbl⟩ := st
  unfold drainStep at h ⊢
  repeat' split at h
  all_goals (cases h <;> simp_all)

theorem processPendingFuel_irrel (f : Bool) (n : Nat) : ∀ st : RendererState,
    drainMeasure st ≤ n →
    processPendingFuel f n st = processPendingFuel f (drainMeasure st) st := by
  induction n using Nat.strong_induction_on with
  | _ n ih =>
    intro st hle
    cases n with
    | zero =>
      have h0 : drainMeasure st = 0 := Nat.le_zero.mp hle
      rw [h0]
    | succ m =>
      cases hμ : drainMeasure st with
      | zero =>
        have hnil : st.pendingLines = [] := by
          unfold drainMeasure at hμ
          cases hp : st.pendingLines with
          | nil => rfl
          | cons a l => rw [hp] at hμ; simp at hμ; try omega
        simp [processPendingFuel, drainStep_nil f hnil]
      | succ k =>
        cases hd : drainStep f st with
        | none => simp only [processPendingFuel, hd]
        | some p =>
          have hlt := drainStep_measure f hd
          rw [hμ] at hlt
          have h1 := ih m (Nat.lt_succ_self m) p.1 (by omega)
          have h2 := ih k (by omega) p.1 (by omega)
          simp only [processPendingFuel, hd]
          rw [h1, h2]

/-- The defining equation of the drain loop. -/
theorem processPending_eq (f : Bool) (st : RendererState) :
    processPending f st =
      match drainStep f st with
      | none => (st, [])
      | some p =>
        ((processPending f p.1).1, p.2 ++ (processPending f p.1).2) := by
  unfold processPending
  cases hμ : drainMeasure st with
  | zero =>
    have hnil : st.pendingLines = [] := by
      unfold drainMeasure at hμ
      cases hp : st.pendingLines with
      | nil => rfl
      | cons a l => rw [hp] at hμ; simp at hμ; try omega
    simp [processPendingFuel, drainStep_nil f hnil]
  | succ k =>
    cases hd : drainStep f st with
    | none => simp only [processPendingFuel, hd]
    | some p =>
      have hlt := drainStep_measure f hd
      rw [hμ] at hlt
      simp only [processPendingFuel, hd]
      rw [processPendingFuel_irrel f k p.1 (by omega)]

/-- Draining never touches the chunk buffer. -/
theorem processPending_buffer (f : Bool) (st : RendererState) :
    (processPending f st).1.buffer = st.buffer := by
  have H : ∀ n (st : RendererState), drainMeasure st ≤ n →
      (processPending f st).1.buffer = st.buffer := by
    intro n
    induction n with
    | zero =>
      intro st hle
      rw [processPending_eq]
      rw [drainStep_nil f ?_]
      · have h0 : drainMeasure st = 0 := Nat.le_zero.mp hle
        unfold drainMeasure at h0
        cases hp : st.pendingLines with
        | nil => rfl
        | cons a l => rw [hp] at h0; simp at h0; try omega
    | succ m ih =>
      intro st hle
      rw [processPending_eq]
      cases hd : drainStep f st with
      | none => rfl
      | some p =>
        have hlt := drainStep_measure f hd
        have hb := drainStep_buffer f hd
        simp only []
        rw [ih p.1 (by omega), hb]
  exact H (drainMeasure st) st le_rfl

/-- The drain loop's behaviour does not depend on the buffer. -/
theorem processPending_bufferIrrel (f : Bool) (st : RendererState) (x : Str) :
    processPending f { st with buffer := x } =
      (({ (processPending f st).1 with buffer := x } : RendererState),
        (processPending f st).2) := by
  have H : ∀ n (st : RendererState), drainMeasure st ≤ n →
      processPending f { st with buffer := x } =
        (({ (processPending f st).1 with buffer := x } : RendererState),
          (processPending f st).2) := by
    intro n
    induction n with
    | zero =>
      intro st hle
      have h0 : drainMeasure st = 0 := Nat.le_zero.mp hle
      have hnil : st.pendingLines = [] := by
        unfold drainMeasure at h0
        cases hp : st.pendingLines with
        | nil => rfl
        | cons a l => rw [hp] at h0; simp at h0; try omega
      rw [processPending_eq, processPending_eq]
      rw [drainStep_nil f hnil, @drainStep_nil f { st with buffer := x } hnil]
    | succ m ih =>
      intro st hle
      cases hd : drainStep f st with
      | none =>
        have h1 : processPending f st = (st, []) := by
          rw [processPending_eq, hd]
        have h2 : processPending f { st with buffer := x } =
            ({ st with buffer := x }, []) := by
          rw [processPending_eq, drainStep_bufferIrrel f st x, hd]
          rfl
        rw [h1, h2]
      | some p =>
        have hlt := drainStep_measure f hd
        have h1 : processPending f st =
            ((processPending f p.1).1, p.2 ++ (processPending f p.1).2) := by
          rw [processPending_eq, hd]
        have h2 : processPending f { st with buffer := x } =
            ((processPending f ({ p.1 with buffer := x } : RendererState)).1,
              p.2 ++
                (processPending f
                  ({ p.1 with buffer := x } : RendererState)).2) := by
          rw [processPending_eq, drainStep_bufferIrrel f st x, hd]
          rfl
        rw [h1, h2, ih p.1 (by omega)]
  exact H (drainMeasure st) st le_rfl

/-- Draining preserves the mutual-exclusion invariant. -/
theorem processPending_mutex (f : Bool) (st : RendererState)
    (hm : MutexInv st) : MutexInv (processPending f st).1 := by
  have H : ∀ n (st : RendererState), drainMeasure st ≤ n → MutexInv st →
      MutexInv (processPending f st).1 := by
    intro n
    induction n with
    | zero =>
      intro st hle hm
      have h0 : drainMeasure st = 0 := Nat.le_zero.mp hle
      have hnil : st.pendingLines = [] := by
        unfold drainMeasure at h0
        cases hp : st.pendingLines with
        | nil => rfl
        | cons a l => rw [hp] at h0; simp at h0; try omega
      rw [processPending_eq, drainStep_nil f hnil]
      exact hm
    | succ m ih =>
      intro st hle hm
      rw [processPending_eq]
      cases hd : drainStep f st with
      | none => exact hm
      | some p =>
        have hlt := drainStep_measure f hd
        exact ih p.1 (by omega) (drainStep_mutex f hd hm)
  exact H (drainMeasure st) st le_rfl hm

/-- After draining, no further iteration is possible. -/
theorem processPending_post (f : Bool) (st : RendererState) :
    drainStep f (processPending f st).1 = none := by
  have H : ∀ n (st : RendererState), drainMeasure st ≤ n →
      drainStep f (processPending f st).1 = none := by
    intro n
    induction n with
    | zero =>
      intro st hle
      have h0 : drainMeasure st = 0 := Nat.le_zero.mp hle
      have hnil : st.pendingLines = [] := by
        unfold drainMeasure at h0
        cases hp : st.pendingLines with
        | nil => rfl
        | cons a l => rw [hp] at h0; simp at h0; try omega
      rw [processPending_eq, drainStep_nil f hnil]
      exact drainStep_nil f hnil
    | succ m ih =>
      intro st hle
      rw [processPending_eq]
      cases hd : drainStep f st with
      | none => exact hd
      | some p =>
        have hlt := drainStep_measure f hd
        exact ih p.1 (by omega)
  exact H (drainMeasure st) st le_rfl

/-- In final mode the drain loop consumes every pending line. -/
theorem processPending_final_nil (st : RendererState) :
    (processPending true st).1.pendingLines = [] :=
  drainStep_final_none (processPending_post true st)

/-- Lines appended behind the queue do not disturb non-final draining:
draining the longer queue equals draining the original queue and then
draining again with the extra lines appended, with the outputs
concatenated. -/
theorem processPending_append (st : RendererState) (extra : List Str) :
    processPending false { st with pendingLines := st.pendingLines ++ extra } =
      ((processPending false
          { (processPending false st).1 with
            pendingLines :=
              (processPending false st).1.pendingLines ++ extra }).1,
        (processPending false st).2 ++
          (processPending false
            { (processPending false st).1 with
              pendingLines :=
                (processPending false st).1.pendingLines ++ extra }).2) := by
  have H : ∀ n (st : RendererState), drainMeasure st ≤ n →
      processPending false
          { st with pendingLines := st.pendingLines ++ extra } =
        ((processPending false
            { (processPending false st).1 with
              pendingLines :=
                (processPending false st).1.pendingLines ++ extra }).1,
          (processPending false st).2 ++
            (processPending false
              { (processPending false st).1 with
                pendingLines :=
                  (processPending false st).1.pendingLines ++ extra }).2) := by
    intro n
    induction n with
    | zero =>
      intro st hle
      have h0 : drainMeasure st = 0 := Nat.le_zero.mp hle
      have hnil : st.pendingLines = [] := by
        unfold drainMeasure at h0
        cases hp : st.pendingLines with
        | nil => rfl
        | cons a l => rw [hp] at h0; simp at h0; try omega
      have hst : processPending false st = (st, []) := by
        rw [processPending_eq, drainStep_nil false hnil]
      rw [hst]
      simp only [List.nil_append]
    | succ m ih =>
      intro st hle
      cases hd : drainStep false st with
      | none =>
        have hst : processPending false st = (st, []) := by
          rw [processPending_eq, hd]
        rw [hst]
        simp only [List.nil_append]
      | some p =>
        have hlt := drainStep_measure false hd
        have hstep := drainStep_append extra hd
        have hL : processPending false
              { st with pendingLines := st.pendingLines ++ extra } =
            ((processPending false
                ({ p.1 with
                    pendingLines := p.1.pendingLines ++ extra } :
                  RendererState)).1,
              p.2 ++
                (processPending false
                  ({ p.1 with
                      pendingLines := p.1.pendingLines ++ extra } :
                    RendererState)).2) := by
          rw [processPending_eq, hstep]
        have hR : processPending false st =
            ((processPending false p.1).1,
              p.2 ++ (processPending false p.1).2) := by
          rw [processPending_eq, hd]
        rw [hL, hR, ih p.1 (by omega)]
        simp [List.append_assoc]
  exact H (drainMeasure st) st le_rfl

/-! ## Line assembly (`splitLines`) -/

theorem splitLines_append (u v : Str) :
    splitLines (u ++ v) =
      ((splitLines u).1 ++ (splitLines ((splitLines u).2 ++ v)).1,
        (splitLines ((splitLines u).2 ++ v)).2) := by
  induction u with
  | nil => simp [splitLines]
  | cons c u ih =>
    by_cases hc : c = '\n'
    · subst hc
      simp [splitLines, ih]
    · cases h1 : (splitLines u).1 with
      | nil =>
        cases hA : (splitLines ((splitLines u).2 ++ v)).1 with
        | nil => simp [splitLines, ih, h1, hA, hc]
        | cons x xs => simp [splitLines, ih, h1, hA, hc]
      | cons l ls => simp [splitLines, ih, h1, hc]

theorem splitLines_no_newline (s : Str) : '\n' ∉ (splitLines s).2 := by
  induction s with
  | nil => simp [splitLines]
  | cons c s ih =>
    by_cases hc : c = '\n'
    · subst hc; simpa [splitLines] using ih
    · cases h1 : (splitLines s).1 with
      | nil =>
        simp [splitLines, hc, h1]
        simp [h1] at ih
        exact ⟨fun h => hc h.symm, ih⟩
      | cons l ls => simp [splitLines, hc, h1]; simp [h1] at ih; exact ih

theorem splitLines_id {s : Str} (h : '\n' ∉ s) : splitLines s = ([], s) := by
  induction s with
  | nil => simp [splitLines]
  | cons c s ih =>
    simp at h
    have h2 := ih h.2
    have hc : ¬c = '\n' := fun hh => h.1 hh.symm
    simp [splitLines, h2, hc]


/-- `splitLines` computes exactly JavaScript's `split('\n')` followed by
popping the last element: the popped lines and the remainder. -/
theorem splitLines_eq_splitOn (s : Str) :
    List.splitOn '\n' s = (splitLines s).1 ++ [(splitLines s).2] := by
  have hP : ∀ t : Str, List.splitOnP (fun x => x == '\n') t =
      List.splitOn '\n' t := fun t => rfl
  induction s with
  | nil => simp [splitLines, List.splitOn]
  | cons c rest ih =>
    rw [List.splitOn, List.splitOnP_cons, hP rest, ih]
    by_cases hc : c = '\n'
    · subst hc
      simp [splitLines]
    · have hb : (c == '\n') = false := by simp [hc]
      rw [hb, if_neg (by simp)]
      cases h1 : (splitLines rest).1 with
      | nil => simp [splitLines, hc, h1, List.modifyHead]
      | cons l ls => simp [splitLines, hc, h1, List.modifyHead]

/-! ## Chunk composition (`write`) -/


theorem write_append (st : RendererState) (a b : Str) :
    write st (a ++ b) =
      ((write (write st a).1 b).1,
        (write st a).2 ++ (write (write st a).1 b).2) := by
  obtain ⟨buf, pend, code, tbl⟩ := st
  simp only [write]
  rw [← List.append_assoc buf a b, splitLines_append (buf ++ a) b]
  have hb : (processPending false
      ⟨(splitLines (buf ++ a)).2, pend ++ (splitLines (buf ++ a)).1, code, tbl⟩).1.buffer
      = (splitLines (buf ++ a)).2 := processPending_buffer _ _
  simp only []
  rw [hb]
  rw [← List.append_assoc pend]
  have happ := processPending_append
    ⟨(splitLines ((splitLines (buf ++ a)).2 ++ b)).2,
      pend ++ (splitLines (buf ++ a)).1, code, tbl⟩
    (splitLines ((splitLines (buf ++ a)).2 ++ b)).1
  simp only [] at happ
  rw [happ]
  have hirr := processPending_bufferIrrel false
    ⟨(splitLines (buf ++ a)).2, pend ++ (splitLines (buf ++ a)).1, code, tbl⟩
    (splitLines ((splitLines (buf ++ a)).2 ++ b)).2
  simp only [] at hirr
  rw [hirr]

theorem write_nil {st : RendererState} (h1 : drainStep false st = none)
    (h2 : '\n' ∉ st.buffer) : write st [] = (st, []) := by
  obtain ⟨buf, pend, code, tbl⟩ := st
  unfold write
  rw [List.append_nil, splitLines_id h2]
  show processPending false ⟨buf, pend ++ [], code, tbl⟩ = _
  rw [List.append_nil]
  rw [processPending_eq, h1]

theorem feedWrites_join (cs : List Str) : ∀ st : RendererState,
    drainStep false st = none → '\n' ∉ st.buffer →
    feedWrites st cs = write st cs.flatten := by
  induction cs with
  | nil =>
    intro st h1 h2
    rw [List.flatten_nil, write_nil h1 h2]
    rfl
  | cons c cs ih =>
    intro st h1 h2
    rw [List.flatten_cons, write_append st c cs.flatten]
    have hpost : drainStep false (write st c).1 = none := by
      simp only [write]
      exact processPending_post false _
    have hbuf : '\n' ∉ (write st c).1.buffer := by
      simp only [write]
      rw [processPending_buffer]
      exact splitLines_no_newline _
    simp only [feedWrites]
    rw [ih (write st c).1 hpost hbuf]


/-! ## `stripAnsi` lemmas -/

theorem stripOut_append (u v : Str) : ∀ st : ScanSt,
    stripOut st (u ++ v) = stripOut st u ++ stripOut (stripFin st u) v := by
  induction u with
  | nil => intro st; simp [stripOut, stripFin]
  | cons c u ih => intro st; simp [stripOut, stripFin, ih]

theorem stripFin_append (u v : Str) : ∀ st : ScanSt,
    stripFin st (u ++ v) = stripFin (stripFin st u) v := by
  induction u with
  | nil => intro st; simp [stripFin]
  | cons c u ih => intro st; simp [stripFin, ih]

theorem scanStep_flush {c : Char} (h : headFlushOk c = true) (st : ScanSt) :
    (scanStep st c).1 = flushSt st ++ (scanStep .norm c).1 ∧
      (scanStep st c).2 = (scanStep .norm c).2 := by
  unfold headFlushOk at h
  simp only [Bool.and_eq_true, Bool.not_eq_true'] at h
  obtain ⟨⟨h1, h2⟩, h3⟩ := h
  cases st with
  | norm => simp [flushSt]
  | esc =>
    by_cases hc : c = escC
    · subst hc
      simp [scanStep, flushSt, show ¬((escC : Char) = '[') from by decide]
    · simp [scanStep, flushSt, h1, hc]
  | par p =>
    by_cases hc : c = escC
    · subst hc
      simp [scanStep, flushSt, h2, h3,
        show ¬((escC : Char) = 'm') from by decide]
    · simp [scanStep, flushSt, h1, h2, h3, hc]

/-- When the right-hand string cannot continue a partial escape, `stripAnsi`
distributes over the concatenation. -/
theorem stripAnsi_append {u v : Str}
    (h : v = [] ∨ ∃ c w, v = c :: w ∧ headFlushOk c = true) :
    stripAnsi (u ++ v) = stripAnsi u ++ stripAnsi v := by
  rcases h with rfl | ⟨c, w, rfl, hc⟩
  · simp [stripAnsi, stripOut, stripFin, flushSt]
  · have hout := stripOut_append u (c :: w) ScanSt.norm
    have hfin := stripFin_append u (c :: w) ScanSt.norm
    obtain ⟨hs1, hs2⟩ := scanStep_flush hc (stripFin ScanSt.norm u)
    unfold stripAnsi
    rw [hout, hfin]
    rw [show stripOut (stripFin ScanSt.norm u) (c :: w) =
        (scanStep (stripFin ScanSt.norm u) c).1 ++
          stripOut (scanStep (stripFin ScanSt.norm u) c).2 w from rfl]
    rw [show stripFin (stripFin ScanSt.norm u) (c :: w) =
        stripFin (scanStep (stripFin ScanSt.norm u) c).2 w from rfl]
    rw [hs1, hs2]
    rw [show stripOut ScanSt.norm (c :: w) =
        (scanStep ScanSt.norm c).1 ++ stripOut (scanStep ScanSt.norm c).2 w from rfl]
    rw [show stripFin ScanSt.norm (c :: w) =
        stripFin (scanStep ScanSt.norm c).2 w from rfl]
    simp [List.append_assoc]

/-- Escape-free strings pass through `stripAnsi` unchanged. -/
theorem stripAnsi_keep {s : Str} (h : ∀ c ∈ s, ¬c = escC) :
    stripAnsi s = s := by
  induction s with
  | nil => rfl
  | cons c s ih =>
    simp at h
    have hstep : scanStep ScanSt.norm c = ([c], ScanSt.norm) := by
      simp [scanStep, h.1]
    unfold stripAnsi
    rw [show stripOut ScanSt.norm (c :: s) =
        (scanStep ScanSt.norm c).1 ++ stripOut (scanStep ScanSt.norm c).2 s from rfl]
    rw [show stripFin ScanSt.norm (c :: s) =
        stripFin (scanStep ScanSt.norm c).2 s from rfl]
    rw [hstep]
    have := ih h.2
    unfold stripAnsi at this
    simp [this]

theorem stripAnsi_boldOn (s : Str) : stripAnsi (boldOn ++ s) = stripAnsi s := rfl

theorem stripAnsi_cyanOn (s : Str) : stripAnsi (cyanOn ++ s) = stripAnsi s := rfl

theorem stripAnsi_tail_codes : stripAnsi (boldOff ++ cyanOff) = [] := rfl

/-! ## Table layout lemmas -/

theorem le_foldlMax {α : Type} (f : α → Nat) (l : List α) (v : Nat) :
    v ≤ l.foldl (fun a r => max a (f r)) v := by
  induction l generalizing v with
  | nil => exact le_rfl
  | cons c l ih => exact le_trans (Nat.le_max_left _ _) (ih (max v (f c)))

theorem mem_le_foldlMax {α : Type} (f : α → Nat) {r : α} {l : List α}
    (h : r ∈ l) (v : Nat) : f r ≤ l.foldl (fun a r => max a (f r)) v := by
  induction l generalizing v with
  | nil => cases h
  | cons c l ih =>
    rcases List.mem_cons.mp h with rfl | h
    · exact le_trans (Nat.le_max_right _ _) (le_foldlMax f l (max v (f r)))
    · exact ih h (max v (f c))

theorem foldlMax_eq {α : Type} (f : α → Nat) (l : List α) (v : Nat) :
    l.foldl (fun a r => max a (f r)) v =
      max v (l.foldr (fun r a => max (f r) a) 0) := by
  induction l generalizing v with
  | nil => simp
  | cons c l ih => simp [ih, Nat.max_assoc]

theorem replicate_space_flushOk (k : Nat) :
    List.replicate k ' ' = [] ∨
      ∃ c w, List.replicate k ' ' = c :: w ∧ headFlushOk c = true := by
  cases k with
  | zero => exact Or.inl rfl
  | succ j =>
    exact Or.inr ⟨' ', List.replicate j ' ', by simp [List.replicate_succ],
      by decide⟩

theorem stripAnsi_replicate_space (k : Nat) :
    stripAnsi (List.replicate k ' ') = List.replicate k ' ' :=
  stripAnsi_keep (by intro c hc; rw [List.eq_of_mem_replicate hc]; decide)

/-- Padding a cell whose visual length fits in the column yields exactly the
column width once the escapes are stripped. -/
theorem padCell_len {w : Nat} {cell : Str} (h : styledLen cell ≤ w) :
    (stripAnsi (padCell w cell)).length = w := by
  unfold styledLen at h
  unfold padCell
  rw [stripAnsi_append (replicate_space_flushOk _),
    stripAnsi_replicate_space]
  simp only [List.length_append, List.length_replicate]
  omega

/-- The header wrapper adds only escape sequences. -/
theorem stripAnsi_headerWrap (x : Str) :
    stripAnsi (boldOn ++ cyanOn ++ x ++ boldOff ++ cyanOff) = stripAnsi x := by
  simp only [List.append_assoc]
  rw [stripAnsi_boldOn, stripAnsi_cyanOn]
  show stripAnsi (x ++ (escC :: '[' :: '2' :: '2' :: 'm' :: cyanOff)) =
    stripAnsi x
  rw [stripAnsi_append
    (Or.inr ⟨escC, '[' :: '2' :: '2' :: 'm' :: cyanOff, rfl, by decide⟩)]
  rw [show stripAnsi (escC :: '[' :: '2' :: '2' :: 'm' :: cyanOff) = [] from rfl,
    List.append_nil]

theorem tableWidths_length (t : TableState) :
    (tableWidths t).length = numCols (allRows t) := by
  simp [tableWidths]

theorem tableWidths_getD (t : TableState) {i : Nat}
    (h : i < (tableWidths t).length) :
    (tableWidths t).getD i 0 = colWidth (allRows t) i := by
  unfold tableWidths at h ⊢
  rw [List.getD_eq_getElem _ _ h]
  simp at h
  simp [List.getElem_map, List.getElem_range, h]

theorem renderRowCells_length (W : List Nat) (r : List Str) (hd : Bool) :
    (renderRowCells W r hd).length = W.length := by
  simp [renderRowCells]

theorem sepCells_length (W : List Nat) : (sepCells W).length = W.length := by
  simp [sepCells]

theorem renderRowCells_getD_false (W : List Nat) (r : List Str) {i : Nat}
    (h : i < W.length) :
    (renderRowCells W r false).getD i [] =
      padCell (W.getD i 0) (r.getD i []) := by
  unfold renderRowCells
  rw [List.getD_eq_getElem _ _ (by simpa using h)]
  simp [List.getElem_map, List.getElem_range, h]

theorem renderRowCells_getD_true (W : List Nat) (r : List Str) {i : Nat}
    (h : i < W.length) :
    (renderRowCells W r true).getD i [] =
      boldOn ++ cyanOn ++ padCell (W.getD i 0) (r.getD i []) ++
        boldOff ++ cyanOff := by
  unfold renderRowCells
  rw [List.getD_eq_getElem _ _ (by simpa using h)]
  simp [List.getElem_map, List.getElem_range, h]

theorem sepCells_getD (W : List Nat) {i : Nat} (h : i < W.length) :
    ((sepCells W).getD i []).length = W.getD i 0 := by
  unfold sepCells
  rw [List.getD_eq_getElem _ _ (by simpa using h), List.getD_eq_getElem _ _ h]
  simp

theorem styledLen_le_colWidth {t : TableState} {r : List Str}
    (hr : r ∈ allRows t) (i : Nat) :
    styledLen (r.getD i []) ≤ colWidth (allRows t) i := by
  have h := mem_le_foldlMax (fun row => styledLen (row.getD i [])) hr 3
  exact h

theorem cell_stripped_len {t : TableState} {r : List Str}
    (hr : r ∈ allRows t) (hd : Bool) {i : Nat}
    (h : i < (tableWidths t).length) :
    (stripAnsi ((renderRowCells (tableWidths t) r hd).getD i [])).length =
      (tableWidths t).getD i 0 := by
  have hw := tableWidths_getD t h
  have hb : styledLen (r.getD i []) ≤ (tableWidths t).getD i 0 := by
    rw [hw]; exact styledLen_le_colWidth hr i
  cases hd with
  | false =>
    rw [renderRowCells_getD_false _ _ h]
    exact padCell_len hb
  | true =>
    rw [renderRowCells_getD_true _ _ h, stripAnsi_headerWrap]
    exact padCell_len hb

/-! ## Table separator lemmas -/

theorem mem_stripColon {c : Char} {l : Str} (h : c ∈ l) :
    c = ':' ∨ c ∈ (if l.head? == some ':' then l.tail else l) := by
  by_cases hcol : l.head? = some ':'
  · cases l with
    | nil => cases h
    | cons a t =>
      simp at hcol
      subst hcol
      simp
      rcases List.mem_cons.mp h with rfl | h2
      · exact Or.inl rfl
      · exact Or.inr h2
  · right
    simp only [beq_iff_eq, if_neg hcol]
    exact h

theorem stripColon_sublist (l : Str) :
    List.Sublist (if l.head? == some ':' then l.tail else l) l := by
  by_cases hcol : l.head? = some ':'
  · simp only [beq_iff_eq, if_pos hcol]
    exact List.tail_sublist l
  · simp only [beq_iff_eq, if_neg hcol]
    exact List.Sublist.refl l

theorem dashSeg_chars {s : Str} (h : dashSeg s = true) :
    ∀ c ∈ s, jsWs c = true ∨ c = ':' ∨ c = '-' := by
  unfold dashSeg at h
  simp only [Bool.and_eq_true] at h
  obtain ⟨-, hs4⟩ := h
  intro c hc
  rw [← List.takeWhile_append_dropWhile jsWs s] at hc
  rcases List.mem_append.mp hc with h1 | h1
  · exact Or.inl (List.mem_takeWhile_imp h1)
  rcases mem_stripColon h1 with rfl | h2
  · exact Or.inr (Or.inl rfl)
  rw [← List.takeWhile_append_dropWhile (fun d => d == '-')
    (if (s.dropWhile jsWs).head? == some ':' then (s.dropWhile jsWs).tail
      else s.dropWhile jsWs)] at h2
  rcases List.mem_append.mp h2 with h3 | h3
  · have hd := List.mem_takeWhile_imp h3
    simp at hd
    exact Or.inr (Or.inr hd)
  rcases mem_stripColon h3 with rfl | h4
  · exact Or.inr (Or.inl rfl)
  · exact Or.inl (List.all_eq_true.mp hs4 c h4)

theorem dashSeg_has_dash {s : Str} (h : dashSeg s = true) : '-' ∈ s := by
  unfold dashSeg at h
  simp only [Bool.and_eq_true, Bool.not_eq_true'] at h
  obtain ⟨hne, -⟩ := h
  rw [List.isEmpty_eq_false_iff_exists_mem] at hne
  obtain ⟨d, hd⟩ := hne
  have hdc := List.mem_takeWhile_imp hd
  simp at hdc
  subst hdc
  have m2 := (List.takeWhile_sublist (fun d => d == '-')).mem hd
  have m1 := (stripColon_sublist (s.dropWhile jsWs)).mem m2
  exact (List.dropWhile_sublist jsWs).mem m1

theorem dashSeg_no_pipe {s : Str} (h : dashSeg s = true) : '|' ∉ s := by
  intro hp
  rcases dashSeg_chars h '|' hp with hw | hc | hc
  · exact absurd hw (by decide)
  · exact absurd hc (by decide)
  · exact absurd hc (by decide)

theorem dashSeg_not_wsOnly {s : Str} (h : dashSeg s = true) :
    wsOnly s = false := by
  have hd := dashSeg_has_dash h
  cases hws : wsOnly s
  · rfl
  · exact absurd (List.all_eq_true.mp hws '-' hd) (by decide)

theorem wsOnly_no_pipe {s : Str} (h : wsOnly s = true) : '|' ∉ s := by
  intro hp
  exact absurd (List.all_eq_true.mp h '|' hp) (by decide)

theorem splitPipe_ne_nil (s : Str) : splitPipe s ≠ [] := by
  cases s with
  | nil => simp [splitPipe]
  | cons c rest =>
    rw [show splitPipe (c :: rest) =
      (match splitPipe rest with
        | [] => [[c]]
        | l :: ls => if c == '|' then [] :: l :: ls else (c :: l) :: ls)
      from rfl]
    cases h : splitPipe rest with
    | nil => simp
    | cons l ls => by_cases hc : c = '|' <;> simp [hc]

/-- `splitPipe` computes exactly JavaScript's `split('|')`. -/
theorem splitPipe_eq_splitOn (s : Str) : splitPipe s = List.splitOn '|' s := by
  have hP : ∀ t : Str, List.splitOnP (fun x => x == '|') t =
      List.splitOn '|' t := fun t => rfl
  induction s with
  | nil => simp [splitPipe, List.splitOn]
  | cons c rest ih =>
    rw [List.splitOn, List.splitOnP_cons, hP rest, ← ih]
    cases h1 : splitPipe rest with
    | nil => exact absurd h1 (splitPipe_ne_nil rest)
    | cons l ls =>
      by_cases hc : c = '|'
      · subst hc
        simp [splitPipe, h1]
      · have hb : (c == '|') = false := by simp [hc]
        rw [hb, if_neg (by simp)]
        simp [splitPipe, h1, hc, List.modifyHead]

theorem splitPipe_cons_pipe (v : Str) :
    splitPipe ('|' :: v) = [] :: splitPipe v := by
  rw [show splitPipe ('|' :: v) =
    (match splitPipe v with
      | [] => [['|']]
      | l :: ls => if ('|' : Char) == '|' then [] :: l :: ls
        else ('|' :: l) :: ls)
    from rfl]
  cases h : splitPipe v with
  | nil => exact absurd h (splitPipe_ne_nil v)
  | cons l ls => simp

theorem splitPipe_append_free {u : Str} (hu : '|' ∉ u) (v : Str) :
    splitPipe (u ++ v) = (u ++ (splitPipe v).headI) :: (splitPipe v).tail := by
  induction u with
  | nil =>
    simp only [List.nil_append]
    cases h : splitPipe v with
    | nil => exact absurd h (splitPipe_ne_nil v)
    | cons l ls => simp [List.headI]
  | cons c u ih =>
    simp only [List.mem_cons, not_or] at hu
    rw [List.cons_append]
    rw [show splitPipe (c :: (u ++ v)) =
      (match splitPipe (u ++ v) with
        | [] => [[c]]
        | l :: ls => if c == '|' then [] :: l :: ls else (c :: l) :: ls)
      from rfl]
    rw [ih (by intro hm; exact hu.2 hm)]
    have hc : ¬c = '|' := fun hh => hu.1 hh.symm
    simp [hc]

theorem splitPipe_single {u : Str} (hu : '|' ∉ u) : splitPipe u = [u] := by
  have h := splitPipe_append_free hu []
  simpa [splitPipe, List.headI] using h

theorem splitPipe_joinPipe_append {cs : List Str} (h : ∀ c ∈ cs, '|' ∉ c)
    (v : Str) : cs ≠ [] →
    splitPipe (joinPipe cs ++ ('|' :: v)) = cs ++ splitPipe v := by
  induction cs with
  | nil => intro hne; exact absurd rfl hne
  | cons c cs ih =>
    intro _
    cases cs with
    | nil =>
      rw [show joinPipe [c] = c from rfl]
      rw [splitPipe_append_free (h c (by simp)) ('|' :: v)]
      rw [splitPipe_cons_pipe]
      simp [List.headI]
    | cons c2 cs2 =>
      rw [show joinPipe (c :: c2 :: cs2) = c ++ '|' :: joinPipe (c2 :: cs2)
        from rfl]
      rw [show (c ++ '|' :: joinPipe (c2 :: cs2)) ++ ('|' :: v) =
        c ++ ('|' :: (joinPipe (c2 :: cs2) ++ ('|' :: v))) by simp]
      rw [splitPipe_append_free (h c (by simp))]
      rw [splitPipe_cons_pipe]
      rw [ih (by intro x hx; exact h x (by simp [hx])) (by simp)]
      simp [List.headI]

theorem splitPipe_joinPipe {cs : List Str} (h : ∀ c ∈ cs, '|' ∉ c) :
    cs ≠ [] → splitPipe (joinPipe cs) = cs := by
  induction cs with
  | nil => intro hne; exact absurd rfl hne
  | cons c cs ih =>
    intro _
    cases cs with
    | nil =>
      rw [show joinPipe [c] = c from rfl]
      exact splitPipe_single (h c (by simp))
    | cons c2 cs2 =>
      rw [show joinPipe (c :: c2 :: cs2) = c ++ '|' :: joinPipe (c2 :: cs2)
        from rfl]
      rw [splitPipe_append_free (h c (by simp))]
      rw [splitPipe_cons_pipe]
      rw [ih (by intro x hx; exact h x (by simp [hx])) (by simp)]
      simp [List.headI]


theorem stripWsHead_of_ws {s : Str} (h : wsOnly s = true) (rest : List Str) :
    stripWsHead (s :: rest) = rest := by
  simp [stripWsHead, h]

theorem stripWsHead_of_dash {s : Str} (h : dashSeg s = true) (rest : List Str) :
    stripWsHead (s :: rest) = s :: rest := by
  simp [stripWsHead, dashSeg_not_wsOnly h]

theorem stripBoth_of_chunks {chunks : List Str} (T : List Str)
    (hne : chunks ≠ []) (hch : ∀ c ∈ chunks, dashSeg c = true)
    (hT : T = [] ∨ ∃ post, T = [post] ∧ wsOnly post = true) :
    (stripWsHead ((chunks ++ T).reverse)).reverse = chunks := by
  rcases hT with rfl | ⟨post, rfl, hpost⟩
  · rw [List.append_nil]
    cases hrev : chunks.reverse with
    | nil => simp at hrev; exact absurd hrev hne
    | cons a l =>
      have ha : a ∈ chunks := by
        rw [← List.mem_reverse, hrev]; simp
      rw [stripWsHead_of_dash (hch a ha)]
      rw [← hrev, List.reverse_reverse]
  · rw [List.reverse_append]
    simp only [List.reverse_cons, List.reverse_nil, List.nil_append,
      List.singleton_append]
    rw [stripWsHead_of_ws hpost]
    exact List.reverse_reverse chunks

theorem stripFirst_of_chunks {chunks : List Str} (T : List Str)
    (hne : chunks ≠ []) (hch : ∀ c ∈ chunks, dashSeg c = true) :
    stripWsHead (chunks ++ T) = chunks ++ T := by
  cases chunks with
  | nil => exact absurd rfl hne
  | cons c0 rest =>
    rw [List.cons_append]
    exact stripWsHead_of_dash (hch c0 (by simp)) _

/-- Any line of the shape `[ws] [|] dash-chunk | dash-chunk | ... [|] [ws]`
with at least two chunks is accepted by the separator regex. -/
theorem isTableSeparator_construct (pre post : Str) (chunks : List Str)
    (lead trail : Bool) (hpre : wsOnly pre = true) (hpost : wsOnly post = true)
    (hlen : 2 ≤ chunks.length) (hch : ∀ c ∈ chunks, dashSeg c = true) :
    isTableSeparator
      ((if lead then pre ++ ['|'] else []) ++ joinPipe chunks ++
        (if trail then '|' :: post else [])) = true := by
  have hne : chunks ≠ [] := by
    intro hh; rw [hh] at hlen; simp at hlen
  have hpf : ∀ c ∈ chunks, '|' ∉ c := fun c hc => dashSeg_no_pipe (hch c hc)
  have hinner : splitPipe
      (joinPipe chunks ++ (if trail then '|' :: post else [])) =
      chunks ++ (if trail then [post] else []) := by
    cases trail with
    | false =>
      show splitPipe (joinPipe chunks ++ []) = chunks ++ []
      rw [List.append_nil, List.append_nil]
      exact splitPipe_joinPipe hpf hne
    | true =>
      show splitPipe (joinPipe chunks ++ ('|' :: post)) = chunks ++ [post]
      rw [splitPipe_joinPipe_append hpf post hne]
      rw [splitPipe_single (wsOnly_no_pipe hpost)]
  have hsegs : splitPipe
      ((if lead then pre ++ ['|'] else []) ++ joinPipe chunks ++
        (if trail then '|' :: post else [])) =
      (if lead then [pre] else []) ++ chunks ++
        (if trail then [post] else []) := by
    rw [List.append_assoc]
    cases lead with
    | false =>
      show splitPipe ([] ++ (joinPipe chunks ++ _)) = [] ++ chunks ++ _
      rw [List.nil_append, List.nil_append]
      rw [hinner]
    | true =>
      show splitPipe ((pre ++ ['|']) ++ (joinPipe chunks ++ _)) =
        [pre] ++ chunks ++ _
      rw [List.append_assoc pre]
      rw [show ['|'] ++ (joinPipe chunks ++
          (if trail then '|' :: post else [])) =
        '|' :: (joinPipe chunks ++ (if trail then '|' :: post else []))
        from rfl]
      rw [splitPipe_append_free (wsOnly_no_pipe hpre)]
      rw [splitPipe_cons_pipe, hinner]
      simp [List.headI]
  have hfirst : stripWsHead
      ((if lead then [pre] else []) ++ chunks ++
        (if trail then [post] else [])) =
      chunks ++ (if trail then [post] else []) := by
    rw [List.append_assoc]
    cases lead with
    | false =>
      show stripWsHead ([] ++ (chunks ++ _)) = chunks ++ _
      rw [List.nil_append]
      exact stripFirst_of_chunks _ hne hch
    | true =>
      show stripWsHead ([pre] ++ (chunks ++ _)) = chunks ++ _
      rw [List.singleton_append]
      exact stripWsHead_of_ws hpre _
  have hcore := stripBoth_of_chunks (if trail then [post] else []) hne hch
    (by cases trail with
      | false => exact Or.inl rfl
      | true => exact Or.inr ⟨post, rfl, hpost⟩)
  have hlt : ¬ ((if lead then [pre] else []) ++ chunks ++
      (if trail then [post] else [])).length < 2 := by
    simp only [List.length_append]
    omega
  unfold isTableSeparator
  rw [hsegs]
  simp only []
  rw [if_neg hlt, hfirst, hcore]
  simp only [Bool.and_eq_true, decide_eq_true_eq, List.all_eq_true]
  exact ⟨hlen, hch⟩

/-! ## Claims -/

theorem isTableSeparator_ne_nil {sep : Str} (h : isTableSeparator sep = true) :
    sep.isEmpty = false := by
  cases sep with
  | nil => exact absurd h (by decide)
  | cons a t => rfl

theorem flush_mutex (st : RendererState) (hm : MutexInv st) :
    MutexInv (flush st).1 := by
  unfold flush
  simp only []
  set st1 := (if st.buffer.isEmpty then st else { st with buffer := ([] : Str), pendingLines := st.pendingLines ++ [st.buffer] }) with hst1
  have h1 : MutexInv st1 := by
    rw [hst1]
    by_cases hb : st.buffer.isEmpty
    · rw [if_pos hb]; exact hm
    · rw [if_neg hb]; exact hm
  have h2 := processPending_mutex true st1 h1
  cases hts : (processPending true st1).1.tableState with
  | some ts =>
    simp only [hts]
    by_cases hc : (({ (processPending true st1).1 with tableState := none } : RendererState)).inCodeBlock
    · rw [if_pos hc]
      intro _
      rfl
    · rw [if_neg hc]
      intro _
      rfl
  | none =>
    simp only [hts]
    by_cases hc : (processPending true st1).1.inCodeBlock
    · rw [if_pos hc]
      intro _
      rfl
    · rw [if_neg hc]
      exact h2

/-- C1: feeding a stream as one `write` call followed by `flush` produces
exactly the same sequence of strings emitted to the sink (hence the same
concatenated output) as feeding the same text split arbitrarily across any
number of `write` calls followed by `flush`. -/
theorem claimC1 (chunks : List Str) :
    render chunks = render [chunks.flatten] := by
  unfold render
  have h := feedWrites_join chunks initialState (drainStep_nil false rfl)
    (by simp [initialState])
  have h2 := feedWrites_join [chunks.flatten] initialState
    (drainStep_nil false rfl) (by simp [initialState])
  rw [h, h2, List.flatten_cons, List.flatten_nil, List.append_nil]

/-- C3: at every point of execution at most one of an open code block and an
accumulating table exists: the invariant holds initially, is preserved by
every single drain iteration (so it holds at every intermediate state of
`processPending`), and is preserved by whole `write` and `flush` calls. -/
theorem claimC3 :
    MutexInv initialState ∧
    (∀ (f : Bool) (st : RendererState) (p : RendererState × List Str),
      MutexInv st → drainStep f st = some p → MutexInv p.1) ∧
    (∀ (st : RendererState) (c : Str), MutexInv st → MutexInv (write st c).1) ∧
    (∀ st : RendererState, MutexInv st → MutexInv (flush st).1) := by
  refine ⟨fun _ => rfl, ?_, ?_, ?_⟩
  · intro f st p hm hd
    exact drainStep_mutex f hd hm
  · intro st c hm
    unfold write
    exact processPending_mutex false _ hm
  · intro st hm
    exact flush_mutex st hm

/-- C3 witness: the invariant is preserved across a concrete `write` call
from the initial state. -/
theorem claimC3_witness : MutexInv (write initialState ['a']).1 :=
  claimC3.2.2.1 initialState ['a'] (by decide)

/-- C6: while a code block is open, one drain iteration on a non-fence line
emits that line verbatim (no inline styling) followed by a newline; on a
fence line it instead closes the block and emits a style reset. -/
theorem claimC6 (f : Bool) (st : RendererState) (l : Str) (rest : List Str)
    (hts : st.tableState = none) (hcb : st.inCodeBlock = true)
    (hp : st.pendingLines = l :: rest) :
    (isFence l = false →
      drainStep f st =
        some ({ st with pendingLines := rest }, [l ++ ['\n']])) ∧
    (isFence l = true →
      drainStep f st =
        some ({ st with pendingLines := rest, inCodeBlock := false },
          [codeOff ++ ['\n']])) := by
  constructor
  · intro hfence
    unfold drainStep
    rw [hp, hts]
    simp [hcb, hfence]
  · intro hfence
    unfold drainStep
    rw [hp, hts]
    simp [hcb, hfence]

/-- C6 witness: a Markdown-styled line inside a code block is passed through
untouched. -/
theorem claimC6_witness :
    isFence ('*' :: '*' :: 'x' :: '*' :: '*' :: []) = false ∧
    drainStep false ⟨[], [('*' :: '*' :: 'x' :: '*' :: '*' :: [])], true, none⟩ =
      some (⟨[], [], true, none⟩,
        [('*' :: '*' :: 'x' :: '*' :: '*' :: '\n' :: [])]) :=
  ⟨by decide,
    (claimC6 false ⟨[], [('*' :: '*' :: 'x' :: '*' :: '*' :: [])], true, none⟩
      ('*' :: '*' :: 'x' :: '*' :: '*' :: []) [] rfl rfl rfl).1 (by decide)⟩

/-- C10: the drain loop terminates: every iteration strictly decreases the
loop variant, and does so by either consuming a pending line or closing the
open table while leaving the queue unchanged; in final mode the loop
consumes every pending line. -/
theorem claimC10 :
    (∀ (f : Bool) (st : RendererState) (p : RendererState × List Str),
      drainStep f st = some p →
      drainMeasure p.1 < drainMeasure st ∧
      (p.1.pendingLines.length < st.pendingLines.length ∨
        (st.tableState.isSome = true ∧ p.1.tableState = none ∧
          p.1.pendingLines = st.pendingLines))) ∧
    (∀ st : RendererState, (processPending true st).1.pendingLines = []) := by
  constructor
  · intro f st p h
    refine ⟨drainStep_measure f h, ?_⟩
    unfold drainStep at h
    repeat' split at h
    all_goals (cases h <;> (simp_all; try omega))
  · exact processPending_final_nil

/-- C10 witness: a concrete iteration consumes the single pending line and
decreases the variant. -/
theorem claimC10_witness :
    drainStep false ⟨[], [['h', 'i']], false, none⟩ =
      some (⟨[], [], false, none⟩, [renderLine ['h', 'i'] ++ ['\n']]) ∧
    drainMeasure (⟨[], [], false, none⟩ : RendererState) <
      drainMeasure ⟨[], [['h', 'i']], false, none⟩ :=
  ⟨by decide,
    (claimC10.1 false ⟨[], [['h', 'i']], false, none⟩
      (⟨[], [], false, none⟩, [renderLine ['h', 'i'] ++ ['\n']])
      (by decide)).1⟩


/-- C4 as stated is false: a fence line containing a pipe character, alone
in the queue in non-final NORMAL mode, is consumed (it opens a code block)
instead of draining stopping with the line left pending. -/
theorem claimC4_cex :
    isTableRow ('`' :: '`' :: '`' :: '|' :: []) = true ∧
    processPending false
        ⟨[], [('`' :: '`' :: '`' :: '|' :: [])], false, none⟩ ≠
      (⟨[], [('`' :: '`' :: '`' :: '|' :: [])], false, none⟩, []) ∧
    (processPending false
        ⟨[], [('`' :: '`' :: '`' :: '|' :: [])], false, none⟩).1.inCodeBlock
      = true := by
  refine ⟨by decide, ?_, by decide⟩
  decide

/-- C4 (amended): in NORMAL mode, when the head pending line contains a pipe
and is not a fence line: if it is the only pending line and the drain is not
in final mode, draining stops entirely with the line left pending;
otherwise, if the second pending line is a valid separator line, one
iteration begins a table with header = parsed cells of the head line and no
rows, consuming both lines; if the second line is not a valid separator (in
particular when it is absent in final mode), the iteration renders only the
head line as a generic line. -/
theorem claimC4 (st : RendererState) (l : Str) (rest : List Str)
    (hts : st.tableState = none) (hcb : st.inCodeBlock = false)
    (hp : st.pendingLines = l :: rest)
    (hrow : isTableRow l = true) (hfence : isFence l = false) :
    (rest = [] → processPending false st = (st, [])) ∧
    (∀ sep rest2, rest = sep :: rest2 → isTableSeparator sep = true →
      drainStep false st =
        some ({ st with
                  tableState := some ⟨parseTableRow l, []⟩,
                  pendingLines := rest2 }, [])) ∧
    (∀ sep rest2, rest = sep :: rest2 → isTableSeparator sep = false →
      drainStep false st =
        some ({ st with pendingLines := rest }, [renderLine l ++ ['\n']])) ∧
    (rest = [] →
      drainStep true st =
        some ({ st with pendingLines := [] },
          [renderLine l ++ ['\n']])) := by
  refine ⟨?_, ?_, ?_, ?_⟩
  · intro hrest
    subst hrest
    have hnone : drainStep false st = none := by
      unfold drainStep
      rw [hp, hts]
      simp [hcb, hfence, hrow]
    rw [processPending_eq, hnone]
  · intro sep rest2 hrest hsep
    subst hrest
    have hne := isTableSeparator_ne_nil hsep
    unfold drainStep
    rw [hp, hts]
    simp [hcb, hfence, hrow, hsep, hne]
  · intro sep rest2 hrest hsep
    subst hrest
    unfold drainStep
    rw [hp, hts]
    simp [hcb, hfence, hrow, hsep]
  · intro hrest
    subst hrest
    unfold drainStep
    rw [hp, hts]
    simp [hcb, hfence, hrow]

/-- C4 witness: with a separator as the second line, the two lines are
consumed and a table is begun. -/
theorem claimC4_witness :
    isTableRow ('a' :: '|' :: 'b' :: []) = true ∧
    isFence ('a' :: '|' :: 'b' :: []) = false ∧
    isTableSeparator ('-' :: '|' :: '-' :: []) = true ∧
    drainStep false
        ⟨[], [('a' :: '|' :: 'b' :: []), ('-' :: '|' :: '-' :: [])],
          false, none⟩ =
      some (⟨[], [], false,
        some ⟨parseTableRow ('a' :: '|' :: 'b' :: []), []⟩⟩, []) :=
  ⟨by decide, by decide, by decide,
    (claimC4 ⟨[], [('a' :: '|' :: 'b' :: []), ('-' :: '|' :: '-' :: [])],
        false, none⟩
      ('a' :: '|' :: 'b' :: []) [('-' :: '|' :: '-' :: [])]
      rfl rfl rfl (by decide) (by decide)).2.1
      ('-' :: '|' :: '-' :: []) [] rfl (by decide)⟩

/-- C5: a deferred table candidate is never discarded: when the stream ends
with a single pipe-containing non-fence line pending and no separator
follows, the line was waiting (non-final draining leaves the state
unchanged), and `flush` resolves it by emitting exactly one plain rendered
line, leaving nothing pending. -/
theorem claimC5 (st : RendererState) (l : Str)
    (hb : st.buffer = []) (hp : st.pendingLines = [l])
    (hts : st.tableState = none) (hcb : st.inCodeBlock = false)
    (hrow : isTableRow l = true) (hfence : isFence l = false) :
    processPending false st = (st, []) ∧
    (flush st).2 = [renderLine l ++ ['\n']] ∧
    (flush st).1.pendingLines = [] := by
  have hwait : drainStep false st = none := by
    unfold drainStep
    rw [hp, hts]
    simp [hcb, hfence, hrow]
  have hstep : drainStep true st =
      some ({ st with pendingLines := ([] : List Str) },
        [renderLine l ++ ['\n']]) := by
    unfold drainStep
    rw [hp, hts]
    simp [hcb, hfence, hrow]
  have hrest : processPending true { st with pendingLines := ([] : List Str) } =
      ({ st with pendingLines := ([] : List Str) }, []) := by
    rw [processPending_eq, drainStep_nil true rfl]
  have hdrain : processPending true st =
      ({ st with pendingLines := ([] : List Str) },
        [renderLine l ++ ['\n']]) := by
    rw [processPending_eq, hstep]
    simp only [hrest]
    simp
  refine ⟨by rw [processPending_eq, hwait], ?_, ?_⟩
  · unfold flush
    simp only [hb]
    rw [show (List.isEmpty ([] : Str)) = true from rfl]
    rw [if_pos rfl]
    rw [hdrain]
    simp [hts, hcb]
  · unfold flush
    simp only [hb]
    rw [show (List.isEmpty ([] : Str)) = true from rfl]
    rw [if_pos rfl]
    rw [hdrain]
    simp [hts, hcb]

/-- C5 witness: the line `"a|b"` alone at end of stream is flushed as a
plain rendered line. -/
theorem claimC5_witness :
    isTableRow ('a' :: '|' :: 'b' :: []) = true ∧
    isFence ('a' :: '|' :: 'b' :: []) = false ∧
    (flush ⟨[], [('a' :: '|' :: 'b' :: [])], false, none⟩).2 =
      [renderLine ('a' :: '|' :: 'b' :: []) ++ ['\n']] :=
  ⟨by decide, by decide,
    (claimC5 ⟨[], [('a' :: '|' :: 'b' :: [])], false, none⟩
      ('a' :: '|' :: 'b' :: []) rfl rfl rfl rfl (by decide) (by decide)).2.1⟩

/-- C7: `flush` on a drained state with a table still open renders and emits
the table as-is with whatever rows were collected and clears `tableState`;
with a code block still open it emits exactly the style reset (no fabricated
closing fence) and clears `inCodeBlock`. -/
theorem claimC7 (st : RendererState) :
    (∀ ts, st.buffer = [] → st.pendingLines = [] → st.tableState = some ts →
      st.inCodeBlock = false →
      flush st = ({ st with tableState := none },
        [renderTable ts ++ ['\n']])) ∧
    (st.buffer = [] → st.pendingLines = [] → st.tableState = none →
      st.inCodeBlock = true →
      flush st = ({ st with inCodeBlock := false },
        [codeOff ++ ['\n']])) := by
  constructor
  · intro ts hb hp hts hcb
    have hdrain : processPending true st = (st, []) := by
      rw [processPending_eq, drainStep_nil true hp]
    unfold flush
    simp only [hb]
    rw [show (List.isEmpty ([] : Str)) = true from rfl]
    rw [if_pos rfl]
    rw [hdrain]
    simp [hts, hcb, hb]
  · intro hb hp hts hcb
    have hdrain : processPending true st = (st, []) := by
      rw [processPending_eq, drainStep_nil true hp]
    unfold flush
    simp only [hb]
    rw [show (List.isEmpty ([] : Str)) = true from rfl]
    rw [if_pos rfl]
    rw [hdrain]
    simp [hts, hcb, hb]

/-- C7 witness: an open one-column table with no rows, and an open code
block, are both resolved by `flush`. -/
theorem claimC7_witness :
    flush ⟨[], [], false, some ⟨[['A']], []⟩⟩ =
      (⟨[], [], false, none⟩, [renderTable ⟨[['A']], []⟩ ++ ['\n']]) ∧
    flush ⟨[], [], true, none⟩ =
      (⟨[], [], false, none⟩, [codeOff ++ ['\n']]) :=
  ⟨(claimC7 ⟨[], [], false, some ⟨[['A']], []⟩⟩).1 ⟨[['A']], []⟩ rfl rfl rfl rfl,
    (claimC7 ⟨[], [], true, none⟩).2 rfl rfl rfl rfl⟩


/-- C2 as stated is false: with header `["A"]` and one data row `["1","22"]`
the rendered header line has two cells, not `header.length = 1` — a data row
longer than the header widens the table. -/
theorem claimC2_cex :
    (renderRowCells
        (tableWidths ⟨[('A' :: [])], [[('1' :: []), ('2' :: '2' :: [])]]⟩)
        [('A' :: [])] true).length = 2 ∧
      ([('A' :: [])] : List Str).length = 1 := by
  decide

/-- C2 (amended): for every table state, the rendered column count is the
maximum row length over the header and all data rows (data rows longer than
the header add columns); the width of column `i` is the maximum over header
and rows of the escape-stripped length of the inline-styled cell `i`
(missing cells count as empty), floored at 3; every rendered row has that
same number of cells, and each cell — header (with its bold/accent
wrapper), data, and separator dashes — occupies exactly its column's width
once escape sequences are stripped. -/
theorem claimC2 (t : TableState) :
    ((tableWidths t).length = numCols (allRows t)) ∧
    (∀ i, i < (tableWidths t).length →
      (tableWidths t).getD i 0 =
        max 3 (((allRows t).map fun r => styledLen (r.getD i [])).foldr max 0)) ∧
    (∀ hd : Bool, ∀ r ∈ allRows t,
      (renderRowCells (tableWidths t) r hd).length = (tableWidths t).length) ∧
    ((sepCells (tableWidths t)).length = (tableWidths t).length) ∧
    (∀ hd : Bool, ∀ r ∈ allRows t, ∀ i, i < (tableWidths t).length →
      (stripAnsi ((renderRowCells (tableWidths t) r hd).getD i [])).length =
        (tableWidths t).getD i 0) ∧
    (∀ i, i < (tableWidths t).length →
      ((sepCells (tableWidths t)).getD i []).length =
        (tableWidths t).getD i 0) := by
  refine ⟨tableWidths_length t, ?_, ?_, sepCells_length _, ?_, ?_⟩
  · intro i h
    rw [tableWidths_getD t h]
    unfold colWidth
    rw [foldlMax_eq, List.foldr_map]
  · intro hd r _
    exact renderRowCells_length _ _ _
  · intro hd r hr i h
    exact cell_stripped_len hr hd h
  · intro i h
    exact sepCells_getD _ h

/-- C2 witness: concrete evaluation on the table with header `["A","BB"]`
and row `["1","22"]`. -/
theorem claimC2_witness :
    (0 < (tableWidths
      ⟨[('A' :: []), ('B' :: 'B' :: [])],
        [[('1' :: []), ('2' :: '2' :: [])]]⟩).length) ∧
    (tableWidths
        ⟨[('A' :: []), ('B' :: 'B' :: [])],
          [[('1' :: []), ('2' :: '2' :: [])]]⟩).getD 0 0 =
      max 3 (((allRows
        ⟨[('A' :: []), ('B' :: 'B' :: [])],
          [[('1' :: []), ('2' :: '2' :: [])]]⟩).map
            fun r => styledLen (r.getD 0 [])).foldr max 0) :=
  ⟨by decide,
    (claimC2 ⟨[('A' :: []), ('B' :: 'B' :: [])],
      [[('1' :: []), ('2' :: '2' :: [])]]⟩).2.1 0 (by decide)⟩

/-- C8 as stated is false: `"---"` consists only of dashes yet is not
classified as a separator line (the regex requires at least two dash runs
separated by a pipe). -/
theorem claimC8_cex :
    (∀ c ∈ ('-' :: '-' :: '-' :: []),
      c = '-' ∨ c = ':' ∨ c = '|' ∨ jsWs c = true) ∧
    isTableSeparator ('-' :: '-' :: '-' :: []) = false := by
  refine ⟨?_, by decide⟩
  decide

/-- C8 (amended): every line built from two or more dash runs (each
optionally wrapped in single colons and whitespace) separated by single
pipes, with an optional whitespace-plus-pipe prefix and an optional
pipe-plus-whitespace suffix, is classified as a separator line; placed
after a pipe-containing non-fence line it marks that line as a table header
(both lines are consumed and a table is begun), and inside TABLE mode it
ends row accumulation (the table is emitted) rather than being appended as
a data row. -/
theorem claimC8 :
    (∀ (pre post : Str) (chunks : List Str) (lead trail : Bool),
      wsOnly pre = true → wsOnly post = true → 2 ≤ chunks.length →
      (∀ c ∈ chunks, dashSeg c = true) →
      isTableSeparator
        ((if lead then pre ++ ['|'] else []) ++ joinPipe chunks ++
          (if trail then '|' :: post else [])) = true) ∧
    (∀ (f : Bool) (st : RendererState) (l sep : Str) (rest : List Str),
      st.tableState = none → st.inCodeBlock = false →
      st.pendingLines = l :: sep :: rest →
      isTableRow l = true → isFence l = false → isTableSeparator sep = true →
      drainStep f st =
        some ({ st with
                  tableState := some ⟨parseTableRow l, []⟩,
                  pendingLines := rest }, [])) ∧
    (∀ (f : Bool) (st : RendererState) (ts : TableState) (sep : Str)
      (rest : List Str),
      st.tableState = some ts → st.pendingLines = sep :: rest →
      isTableSeparator sep = true →
      drainStep f st =
        some ({ st with tableState := none },
          [renderTable ts ++ ['\n']])) := by
  refine ⟨?_, ?_, ?_⟩
  · intro pre post chunks lead trail hpre hpost hlen hch
    exact isTableSeparator_construct pre post chunks lead trail hpre hpost
      hlen hch
  · intro f st l sep rest hts hcb hp hrow hfence hsep
    have hne := isTableSeparator_ne_nil hsep
    unfold drainStep
    rw [hp, hts]
    simp [hcb, hfence, hrow, hsep, hne]
  · intro f st ts sep rest hts hp hsep
    unfold drainStep
    rw [hp, hts]
    simp [hsep]

/-- C8 witness: `" |-|:-:|"` is a separator; it promotes `"a|b"` to a table
header, and ends accumulation of an open table. -/
theorem claimC8_witness :
    isTableSeparator
      ((if true then (' ' :: []) ++ ['|'] else []) ++
        joinPipe [('-' :: []), (':' :: '-' :: ':' :: [])] ++
        (if true then '|' :: [] else [])) = true ∧
    drainStep false
        ⟨[], [('a' :: '|' :: 'b' :: []), ('-' :: '|' :: '-' :: [])],
          false, none⟩ ≠ none ∧
    drainStep false
        ⟨[], [('-' :: '|' :: '-' :: [])], false, some ⟨[('a' :: [])], []⟩⟩ =
      some (⟨[], [('-' :: '|' :: '-' :: [])], false, none⟩,
        [renderTable ⟨[('a' :: [])], []⟩ ++ ['\n']]) :=
  ⟨claimC8.1 (' ' :: []) [] [('-' :: []), (':' :: '-' :: ':' :: [])]
      true true (by decide) (by decide) (by decide) (by decide),
    by decide,
    claimC8.2.2 false
      ⟨[], [('-' :: '|' :: '-' :: [])], false, some ⟨[('a' :: [])], []⟩⟩
      ⟨[('a' :: [])], []⟩ ('-' :: '|' :: '-' :: []) [] rfl rfl (by decide)⟩

/-- C9: after every `write` call the buffer holds no newline character (it
is the remainder after the last newline of the accumulated text), and after
every `flush` call the buffer is empty. -/
theorem claimC9 :
    (∀ (st : RendererState) (c : Str), '\n' ∉ (write st c).1.buffer) ∧
    (∀ st : RendererState, (flush st).1.buffer = []) := by
  constructor
  · intro st c
    unfold write
    rw [processPending_buffer]
    exact splitLines_no_newline _
  · intro st
    unfold flush
    simp only []
    set st1 := (if st.buffer.isEmpty then st else { st with buffer := ([] : Str), pendingLines := st.pendingLines ++ [st.buffer] }) with hst1
    have hb1 : st1.buffer = [] := by
      rw [hst1]
      by_cases hb : st.buffer.isEmpty
      · rw [if_pos hb]
        exact List.isEmpty_iff.mp hb
      · rw [if_neg hb]
    have hb2 : (processPending true st1).1.buffer = [] := by
      rw [processPending_buffer]
      exact hb1
    cases hts : (processPending true st1).1.tableState with
    | some ts =>
      simp only [hts]
      by_cases hc : (({ (processPending true st1).1 with
          tableState := none } : RendererState)).inCodeBlock
      · rw [if_pos hc]
        exact hb2
      · rw [if_neg hc]
        exact hb2
    | none =>
      simp only [hts]
      by_cases hc : (processPending true st1).1.inCodeBlock
      · rw [if_pos hc]
        exact hb2
      · rw [if_neg hc]
        exact hb2

/-- C9 witness: a concrete `write` leaving a partial line, and a concrete
`flush`. -/
theorem claimC9_witness :
    '\n' ∉ (write initialState ('x' :: '\n' :: 'y' :: [])).1.buffer ∧
    (flush ⟨('y' :: []), [], false, none⟩).1.buffer = [] :=
  ⟨claimC9.1 initialState ('x' :: '\n' :: 'y' :: []),
    claimC9.2 ⟨('y' :: []), [], false, none⟩⟩

end MdRender
